import Mathlib

/-!
Verification development for the retrieval-and-ranking pipeline of the
`company-buddy` backend (`backend/app`): query analysis, semantic chunking,
BM25 post-filtering, reciprocal-rank fusion, cross-encoder reranking, query
rewriting, citation extraction, and the adaptive-K selection of the `ask`
route.  Python code is shallowly embedded: strings are `String`/`List Char`,
Python floats are modelled as `ℚ` (the properties at stake are order and
exact-fraction facts), dicts with a fixed field set are records with
`Option` fields, and external collaborators (vector backend, cross-encoder,
LLM) are function parameters.
-/

/-! ## Python string helpers -/

/-- Python `str.split()` word counting: number of maximal runs of
non-whitespace characters. -/
def pyWordCount (l : List Char) : Nat :=
  (l.foldl
    (fun (acc : Nat × Bool) c =>
      if c.isWhitespace then (acc.1, false)
      else if acc.2 then (acc.1, true) else (acc.1 + 1, true))
    (0, false)).1

/-- Python `str.strip()` on a character list. -/
def pyStrip (l : List Char) : List Char :=
  ((l.dropWhile Char.isWhitespace).reverse.dropWhile Char.isWhitespace).reverse

/-- Python `sub in s` substring containment (`re.search` of a literal). -/
def containsSub (sub : List Char) : List Char → Bool
  | [] => sub.isEmpty
  | c :: t => sub.isPrefixOf (c :: t) || containsSub sub t

/-- Lower-case then strip, as `query.lower().strip()` (ASCII case folding). -/
def pyStripLower (s : String) : List Char :=
  pyStrip (s.data.map Char.toLower)

/-! ## QueryAnalyzer (`app/services/query_analyzer.py`)

`analyze` lower-cases and strips the query, classifies it by pattern lists
(first match wins), and computes the recommended K.  The
`complexity_score` computation (source lines 114-140) is not referenced by
any claim and is not embedded. -/

/-- Embeds `SIMPLE_PATTERNS`: both regexes are anchored (`^(...)`), so matching is
"query starts with one of these alternatives". -/
def simplePrefixes : List (List Char) :=
  ["o que é", "quem é", "quando", "onde", "qual",
   "what is", "who is", "when", "where", "which"].map String.data

/-- Embeds `COMPLEX_PATTERNS`: unanchored alternation, so matching is substring
containment of one of the alternatives. -/
def complexSubstrings : List (List Char) :=
  ["compare", "diferença", "todos", "liste", "enumere",
   "compare", "difference", "all", "list", "enumerate"].map String.data

/-- Embeds `PROCEDURAL_PATTERNS`: unanchored alternation. -/
def proceduralSubstrings : List (List Char) :=
  ["como", "passo a passo", "processo", "procedimento",
   "how", "step by step", "process", "procedure"].map String.data

/-- Embeds `QueryAnalyzer._classify_query_type`. -/
def classifyQueryType (q : List Char) : String :=
  if simplePrefixes.any (fun p => p.isPrefixOf q) then "simple"
  else if complexSubstrings.any (fun p => containsSub p q) then "complex"
  else if proceduralSubstrings.any (fun p => containsSub p q) then "procedural"
  else "general"

/-- The `k_map` base-K dictionary with its `.get(query_type, 5)` default. -/
def kMap (queryType : String) : Nat :=
  if queryType = "simple" then 3
  else if queryType = "complex" then 10
  else if queryType = "procedural" then 7
  else if queryType = "general" then 5
  else 5

/-- Embeds `QueryAnalyzer._get_recommended_k`, with the source's `if word_count >
15: base_k += 2 elif word_count > 25: base_k += 4` structure kept verbatim. -/
def getRecommendedK (queryType : String) (q : List Char) : Nat :=
  let baseK := kMap queryType
  let wordCount := pyWordCount q
  let k := if wordCount > 15 then baseK + 2
           else if wordCount > 25 then baseK + 4
           else baseK
  min k 15

/-- Result record of `QueryAnalyzer.analyze` (the fields the claims use). -/
structure QueryAnalysis where
  query_type : String
  recommended_k : Nat
  deriving Repr, DecidableEq

/-- Embeds `QueryAnalyzer.analyze`. -/
def analyze (query : String) : QueryAnalysis :=
  let ql := pyStripLower query
  let t := classifyQueryType ql
  ⟨t, getRecommendedK t ql⟩

/-- Modelled from the spec sentence of claim C1 (not from the source): base
K plus `+2` for word count `> 15` plus an additional `+4` for word count
`> 25`, cumulatively, capped at 15. -/
def specRecommendedK (baseK wordCount : Nat) : Nat :=
  min (baseK + (if wordCount > 15 then 2 else 0)
             + (if wordCount > 25 then 4 else 0)) 15

/-- A 26-word query matching none of the type patterns (hence `general`). -/
def q26 : String :=
  "w1 w2 w3 w4 w5 w6 w7 w8 w9 w10 w11 w12 w13 w14 w15 w16 w17 w18 w19 w20 w21 w22 w23 w24 w25 w26"

/-! ## Adaptive-K selection of the `ask` route (`app/api/v1/routes/ask.py`)

`AskRequest.top_k` has schema default `5`; the route uses the analyzer's
recommendation unless the payload value differs from `5`. -/

/-- The `AskRequest` schema default for `top_k`. -/
def askRequestDefaultTopK : Int := 5

/-- Lines 147-153 of `ask.py`: `top_k = payload.top_k if payload.top_k != 5
else analysis["recommended_k"]`. -/
def effectiveTopK (payloadTopK : Int) (searchQuery : String) : Int :=
  if payloadTopK ≠ 5 then payloadTopK
  else ((analyze searchQuery).recommended_k : Int)

/-! ## SemanticChunker (`app/services/semantic_chunker.py`)

`chunk_text` strips page-marker tokens, detects sections, and chunks each
section with overlap.  Only fragment-text production is embedded; the
page-number back-mapping (a substring search used solely to fill the
`page_number` metadata field) does not affect the produced fragment texts. -/

/-- Python `str.isupper()` under ASCII case: at least one cased character
and no lower-case character. -/
def pyIsUpper (l : List Char) : Bool :=
  l.any Char.isUpper && l.all (fun c => !c.isLower)

/-- Python `text.split("\n")` (keeps empty pieces). -/
def splitLines : List Char → List (List Char)
  | [] => [[]]
  | c :: t =>
    if c = '\n' then [] :: splitLines t
    else
      match splitLines t with
      | [] => [[c]]
      | h :: r => (c :: h) :: r

/-- Prepend a character onto the first piece of a split-in-progress. -/
def consCurrent (c : Char) : List (List Char) → List (List Char)
  | [] => [[c]]
  | h :: r => (c :: h) :: r

/-- If the input begins with a full page marker `<<<PAGE_\d+>>>`, the
marker's length. -/
def matchMarker (s : List Char) : Option Nat :=
  if ("<<<PAGE_".data).isPrefixOf s then
    let rest := s.drop 8
    let ds := rest.takeWhile Char.isDigit
    if ds ≠ [] ∧ (">>>".data).isPrefixOf (rest.drop ds.length) then
      some (8 + ds.length + 3)
    else none
  else none

/-- Scanner for `stripPageMarkers`; `fuel` bounds the recursion (each step
consumes at least one character, so `length + 1` fuel suffices and the
fuel-exhausted branch is unreachable). -/
def stripPageMarkersAux : Nat → List Char → List Char
  | 0, _ => []
  | _ + 1, [] => []
  | fuel + 1, c :: t =>
    match matchMarker (c :: t) with
    | some n => stripPageMarkersAux fuel (t.drop (n - 1))
    | none => c :: stripPageMarkersAux fuel t

/-- Embeds `re.split(r'(<<<PAGE_\d+>>>)', text)` keeping only the content parts:
remove every well-formed page marker, scanning left to right. -/
def stripPageMarkers (l : List Char) : List Char :=
  stripPageMarkersAux (l.length + 1) l

/-- One section of `_detect_sections`: optional title and accumulated text. -/
structure DocSection where
  title : Option (List Char)
  text : List Char
  deriving Repr, DecidableEq

/-- Embeds `SemanticChunker._detect_sections`: all-caps short lines start a titled
section; a short line ending in `:` with no title yet sets the title; other
lines accumulate (with their newline) into the current section. -/
def detectSections (text : List Char) : List DocSection :=
  let step := fun (st : List DocSection × DocSection) (line : List Char) =>
    let stripped := pyStrip line
    if stripped = [] then st
    else if pyIsUpper stripped ∧ stripped.length < 100 ∧ stripped.length > 3 then
      (if pyStrip st.2.text ≠ [] then st.1 ++ [st.2] else st.1, ⟨some stripped, []⟩)
    else if stripped.getLast? = some ':' ∧ stripped.length < 100 ∧ st.2.title = none then
      (st.1, ⟨some stripped.dropLast, st.2.text⟩)
    else (st.1, ⟨st.2.title, st.2.text ++ line ++ ['\n']⟩)
  let fin := (splitLines text).foldl step ([], ⟨none, []⟩)
  let secs := if pyStrip fin.2.text ≠ [] then fin.1 ++ [fin.2] else fin.1
  if secs = [] then [⟨none, text⟩] else secs

/-- Scanner for `paraSplit` (fuel-bounded; each step consumes at least one
character). -/
def paraSplitAux : Nat → List Char → List (List Char)
  | 0, _ => [[]]
  | _ + 1, [] => [[]]
  | fuel + 1, c :: t =>
    if c = '\n' then
      match (t.takeWhile Char.isWhitespace).reverse.findIdx? (· = '\n') with
      | some jr =>
        [] :: paraSplitAux fuel
          (t.drop ((t.takeWhile Char.isWhitespace).length - 1 - jr + 1))
      | none => consCurrent c (paraSplitAux fuel t)
    else consCurrent c (paraSplitAux fuel t)

/-- Embeds `re.split(r'\n\s*\n', text)`: a separator is a newline, optional
whitespace, and a final newline, matched greedily (so a run of blank lines
is one separator). -/
def paraSplit (l : List Char) : List (List Char) :=
  paraSplitAux (l.length + 1) l

/-- Embeds `re.split(r'(?<=[.!?])\s+', text)`: split where a whitespace run
follows `.`, `!` or `?`; the run is consumed as the separator.  `prev` is
the character before the current position (fuel-bounded scan). -/
def sentSplitAux : Nat → Option Char → List Char → List (List Char)
  | 0, _, _ => [[]]
  | _ + 1, _, [] => [[]]
  | fuel + 1, prev, c :: t =>
    if c.isWhitespace ∧ (prev = some '.' ∨ prev = some '!' ∨ prev = some '?') then
      [] :: sentSplitAux fuel none (t.dropWhile Char.isWhitespace)
    else consCurrent c (sentSplitAux fuel (some c) t)

/-- Embeds `SemanticChunker._split_by_sentences`. -/
def splitBySentences (l : List Char) : List (List Char) :=
  ((sentSplitAux (l.length + 1) none l).map pyStrip).filter (· ≠ [])

/-- Embeds `"\n\n".join(parts)`. -/
def joinSep (parts : List (List Char)) : List Char :=
  (parts.intersperse ('\n' :: ['\n'])).flatten

/-- Embeds `SemanticChunker._get_overlap`: the last `overlapSize` characters of
the joined current chunk, advanced past the first space and stripped when a
space occurs at a positive offset. -/
def getOverlap (overlapSize : Nat) (currentChunk : List (List Char)) : List Char :=
  if currentChunk = [] then []
  else
    let full := joinSep currentChunk
    if full.length ≤ overlapSize then full
    else
      let ov := full.drop (full.length - overlapSize)
      match ov.findIdx? (· = ' ') with
      | some i => if i > 0 then pyStrip (ov.drop i) else ov
      | none => ov

/-- Loop state of `_chunk_section`: finished chunks, current chunk pieces,
and the source's `current_size` counter (which counts piece lengths only,
not the `"\n\n"` separators added by `join`). -/
structure ChunkState where
  chunks : List (List Char)
  cur : List (List Char)
  size : Nat
  deriving Repr

/-- The sentence-packing inner loop of `_chunk_section` (for paragraphs
larger than `maxSize`). -/
def stepSentence (maxSize : Nat) (st : ChunkState) (s : List Char) : ChunkState :=
  if st.size + s.length > maxSize then
    { chunks := if st.cur ≠ [] then st.chunks ++ [joinSep st.cur] else st.chunks,
      cur := [s], size := s.length }
  else { st with cur := st.cur ++ [s], size := st.size + s.length }

/-- The paragraph loop body of `_chunk_section`. -/
def stepParagraph (maxSize overlapSize : Nat) (st : ChunkState) (para : List Char) :
    ChunkState :=
  if para.length > maxSize then
    let st1 := if st.cur ≠ [] then
        { chunks := st.chunks ++ [joinSep st.cur], cur := [], size := 0 }
      else st
    (splitBySentences para).foldl (stepSentence maxSize) st1
  else if st.size + para.length > maxSize then
    let chunks := if st.cur ≠ [] then st.chunks ++ [joinSep st.cur] else st.chunks
    let ov := getOverlap overlapSize st.cur
    if ov ≠ [] then { chunks := chunks, cur := [ov, para], size := ov.length + para.length }
    else { chunks := chunks, cur := [para], size := para.length }
  else { st with cur := st.cur ++ [para], size := st.size + para.length }

/-- Embeds `SemanticChunker._chunk_section`. -/
def chunkSection (maxSize overlapSize minSize : Nat) (text : List Char)
    (sectionTitle : Option (List Char)) : List (List Char) :=
  if pyStrip text = [] then []
  else
    let paragraphs := ((paraSplit text).map pyStrip).filter (· ≠ [])
    let st0 : ChunkState :=
      match sectionTitle with
      | some t => { chunks := [], cur := ["## ".data ++ t ++ ['\n']], size := t.length + 4 }
      | none => { chunks := [], cur := [], size := 0 }
    let st := paragraphs.foldl (stepParagraph maxSize overlapSize) st0
    if st.cur ≠ [] then
      let chunkText := joinSep st.cur
      if chunkText.length ≥ minSize then st.chunks ++ [chunkText] else st.chunks
    else st.chunks

/-- The fragment texts produced by `SemanticChunker.chunk_text` (metadata,
which does not influence the texts, is not modelled). -/
def chunkTexts (maxSize overlapSize minSize : Nat) (text : String) :
    List (List Char) :=
  if pyStrip text.data = [] then []
  else
    let clean := stripPageMarkers text.data
    ((detectSections clean).map
      (fun s => chunkSection maxSize overlapSize minSize s.text s.title)).flatten

/-! ## Candidate records shared by BM25, RRF fusion, and the reranker

The Python code passes plain dicts between `BM25Service.search`,
`HybridSearchService._reciprocal_rank_fusion` and `RerankerService.rerank`.
`PyDoc` is the record of every dict field those functions read or write;
fields a given dict may lack are `Option`s. -/

structure PyDoc where
  text : String := ""
  document_id : Option String := none
  chunk_index : Option Int := none
  pk : Option String := none
  id : Option String := none
  tenant_id : Option Int := none
  source : Option String := none
  bm25_score : Option ℚ := none
  rrf_score : Option ℚ := none
  score : Option ℚ := none
  rerank_score : Option ℚ := none
  deriving Repr, DecidableEq

/-- Embeds `doc_copy['source'] = tag`. -/
def setSource (tag : String) (d : PyDoc) : PyDoc := { d with source := some tag }

/-- Embeds `get_unique_key` of `_reciprocal_rank_fusion`: `document_id_chunk_index`
when both are present, else `pk`, else `id`, else `hash(text)`.  Python's
`hash` is seed-dependent, so it is a parameter `pyHash`. -/
def getUniqueKey (pyHash : String → Int) (d : PyDoc) : String :=
  match d.document_id, d.chunk_index with
  | some di, some ci => di ++ "_" ++ toString ci
  | _, _ =>
    match d.pk with
    | some p => p
    | none =>
      match d.id with
      | some i => i
      | none => toString (pyHash d.text)

/-- One entry of the fusion dictionaries: `merged_scores[key]` and
`merged_docs[key]`, insertion-ordered as a Python dict is. -/
structure FusedEntry where
  key : String
  score : ℚ
  doc : PyDoc
  deriving Repr, DecidableEq

/-- Embeds `key in merged_scores`. -/
def containsKey (m : List FusedEntry) (kk : String) : Bool :=
  m.any (fun e => e.key = kk)

/-- Dict update for an existing key: add `sc` to its score and, in the
BM25 pass (`mh = true`), re-tag its doc as `hybrid`. -/
def bumpEntry (kk : String) (sc : ℚ) (mh : Bool) : List FusedEntry → List FusedEntry
  | [] => []
  | e :: es =>
    if e.key = kk then
      { e with score := e.score + sc,
               doc := if mh then setSource "hybrid" e.doc else e.doc } :: es
    else e :: bumpEntry kk sc mh es

/-- One pass of `_reciprocal_rank_fusion` over a result list: rank `r`
contributes `w * (1 / (k + r + 1))`; a new key is inserted tagged `tag`,
an existing key accumulates (and in the BM25 pass is re-tagged `hybrid`). -/
def processList (keyOf : PyDoc → String) (w : ℚ) (k : Nat) (tag : String)
    (mh : Bool) : Nat → List PyDoc → List FusedEntry → List FusedEntry
  | _, [], m => m
  | rank, d :: ds, m =>
    let kk := keyOf d
    let sc := w * (1 / ((k : ℚ) + rank + 1))
    let m' := if containsKey m kk then bumpEntry kk sc mh m
              else m ++ [⟨kk, sc, setSource tag d⟩]
    processList keyOf w k tag mh (rank + 1) ds m'

/-- The fusion dictionaries after both passes of
`_reciprocal_rank_fusion` (vector list first, BM25 list second). -/
def fusedEntries (pyHash : String → Int) (la lb : List PyDoc) (k : Nat)
    (wv wb : ℚ) : List FusedEntry :=
  processList (getUniqueKey pyHash) wb k "bm25" true 0 lb
    (processList (getUniqueKey pyHash) wv k "vector" false 0 la [])

/-- Embeds `HybridSearchService._reciprocal_rank_fusion`: fuse, sort by
accumulated score descending (Python's `sorted` is stable), and attach
`rrf_score`/`score`. -/
def reciprocalRankFusion (pyHash : String → Int) (la lb : List PyDoc)
    (k : Nat) (wv wb : ℚ) : List PyDoc :=
  (List.insertionSort (fun a b : FusedEntry => b.score ≤ a.score)
    (fusedEntries pyHash la lb k wv wb)).map
    (fun e => { e.doc with rrf_score := some e.score, score := some e.score })

/-- The mutation `rerank` applies to every input chunk dict:
`chunk["rerank_score"] = float(score)`. -/
def rerankScored (predict : String → String → ℚ) (query : String)
    (chunks : List PyDoc) : List PyDoc :=
  chunks.map (fun c => { c with rerank_score := some (predict query c.text) })

/-- Embeds `RerankerService.rerank`.  The cross-encoder is the parameter
`predict`.  Returned pair: (the input list as mutated in place, the
filtered/sorted/truncated result list).  Filtering keeps
`rerank_score >= score_threshold`. -/
def rerank (predict : String → String → ℚ) (query : String)
    (chunks : List PyDoc) (topK : Nat) (scoreThreshold : ℚ) :
    List PyDoc × List PyDoc :=
  if chunks = [] then ([], [])
  else
    (rerankScored predict query chunks,
     (List.insertionSort
       (fun a b : PyDoc => b.rerank_score.getD 0 ≤ a.rerank_score.getD 0)
       ((rerankScored predict query chunks).filter
         (fun c => decide (scoreThreshold ≤ c.rerank_score.getD 0)))).take topK)

/-- Embeds `HybridSearchService.hybrid_search`.  The vector backend and the BM25
index are the collaborator parameters `vecSearch`/`bmSearch` (a function of
the requested limit `initial_k = 4 * top_k`); with hybrid mode disabled the
vector backend's own output is returned directly. -/
def hybridSearch (hybridEnabled : Bool) (pyHash : String → Int)
    (vecSearch : Nat → List PyDoc) (bmSearch : Nat → List PyDoc)
    (predict : String → String → ℚ) (query : String) (topK : Nat)
    (vectorWeight bm25Weight : ℚ) (rrfK : Nat) : List PyDoc :=
  if !hybridEnabled then vecSearch topK
  else
    (rerank predict query
      ((reciprocalRankFusion pyHash (vecSearch (topK * 4)) (bmSearch (topK * 4))
        rrfK vectorWeight bm25Weight).take (topK * 4))
      topK 0).2

/-! ## BM25Service.search (`app/services/bm25_service.py`)

The Okapi scoring itself lives in the external `rank_bm25` library; the
per-document score list is the parameter `scores` (one score per indexed
chunk, positionally aligned with `metadata`). -/

/-- Embeds `BM25Service.search`: tenant post-filter (a document with no
`tenant_id` tag passes every filter), positive-score filter, sort by score
descending, truncate to `top_k`. -/
def bm25Search (metadata : List PyDoc) (scores : List ℚ) (topK : Nat)
    (tenantId : Option Int) : List PyDoc :=
  (List.insertionSort (fun a b : PyDoc => b.score.getD 0 ≤ a.score.getD 0)
    ((metadata.zip scores).filterMap
      (fun p =>
        if (match tenantId, p.1.tenant_id with
            | some t, some dt => decide (dt = t)
            | _, _ => true) then
          if 0 < p.2 then some { p.1 with bm25_score := some p.2, score := some p.2 }
          else none
        else none))).take topK

/-! ## QueryRewriter (`app/services/query_rewriter.py`)

The LLM collaborator is the parameter `generateRaw`; a raised exception is
an `Except.error`. -/

/-- Word character for `\b`/`\w` (Python matches Unicode word characters;
every non-ASCII character occurring in the patterns concerned is a letter,
so non-ASCII is treated as a word character). -/
def pyIsWordChar (c : Char) : Bool :=
  c.isAlphanum || c = '_' || decide (c.toNat > 127)

/-- A `\b` boundary holds against a neighbouring character (or the string
edge). -/
def boundaryOk (oc : Option Char) : Bool :=
  match oc with
  | none => true
  | some c => !pyIsWordChar c

/-- Embeds `re.search(r'\bw\b', s)`: scan for an occurrence of `w` flanked by
word boundaries; `prev` is the character before the scan position. -/
def wordSearchAux (w : List Char) : Option Char → List Char → Bool
  | prev, [] => boundaryOk prev && w.isEmpty
  | prev, c :: t =>
    (boundaryOk prev && w.isPrefixOf (c :: t)
      && boundaryOk (((c :: t).drop w.length).head?))
    || wordSearchAux w (some c) t

/-- Word-boundary search of a literal word in a character list. -/
def wordSearch (w : String) (s : List Char) : Bool :=
  wordSearchAux w.data none s

/-- The pronoun alternatives of the first follow-up indicator pattern. -/
def followupPronouns : List String :=
  ["ele", "ela", "isso", "este", "esta", "esse", "essa", "aquele", "aquela"]

/-- Embeds `QueryRewriterService._is_followup_question`. -/
def isFollowupQuestion (query : String) : Bool :=
  let ql := pyStripLower query
  let wordCount := pyWordCount ql
  if wordCount ≤ 5 then true
  else
    followupPronouns.any (fun w => wordSearch w ql)
    || (match ql with
        | 'e' :: c :: _ => c.isWhitespace
        | _ => false)
    || wordSearch "também" ql || wordSearch "mesmo" ql
    || wordSearch "aqui" ql || wordSearch "lá" ql

/-- The role-labelled transcript (`"\n".join(f"{role.upper()}: {content}")`). -/
def buildHistoryText (recent : List (String × String)) : String :=
  String.intercalate "\n" (recent.map (fun m => m.1.toUpper ++ ": " ++ m.2))

/-- The rewrite prompt f-string. -/
def buildRewritePrompt (historyText currentQuery : String) : String :=
  "Dado o histórico de conversa abaixo, reescreva a última pergunta do usuário para que ela seja autocontida e possa ser entendida sem o contexto anterior.\n\nHISTÓRICO:\n"
  ++ historyText
  ++ "\n\nPERGUNTA ATUAL: " ++ currentQuery
  ++ "\n\nINSTRUÇÕES:\n- Reescreva a pergunta para ser autocontida\n- Mantenha em português brasileiro\n- Seja conciso\n- Não adicione informações que não estão no contexto\n- Se a pergunta já é autocontida, retorne ela como está\n\nPERGUNTA REESCRITA:"

/-- Embeds `conversation_history[-max_history_turns * 2:]`: the whole list when
the count is zero (Python `[-0:]`), otherwise the suffix of that length. -/
def recentHistory (history : List (String × String)) (maxHistoryTurns : Nat) :
    List (String × String) :=
  if maxHistoryTurns * 2 = 0 then history
  else history.drop (history.length - maxHistoryTurns * 2)

/-- Embeds `QueryRewriterService.rewrite_with_context`.  History entries are
`(role, content)` pairs.  The `try/except` around the generation call is
the `match` on `Except`. -/
def rewriteWithContext (generateRaw : String → Except String String)
    (currentQuery : String) (history : List (String × String))
    (maxHistoryTurns : Nat) : String :=
  if history = [] then currentQuery
  else if !isFollowupQuestion currentQuery then currentQuery
  else
    match generateRaw (buildRewritePrompt
        (buildHistoryText (recentHistory history maxHistoryTurns)) currentQuery) with
    | Except.error _ => currentQuery
    | Except.ok rewritten =>
      if rewritten.trim ≠ "" ∧ rewritten.trim.length > 5 then rewritten.trim
      else currentQuery

/-! ## Citation extraction (`LLMService._extract_citations`) -/

/-- Decimal value of a digit run. -/
def digitsToNat (ds : List Char) : Nat :=
  ds.foldl (fun n c => n * 10 + (c.toNat - '0'.toNat)) 0

/-- Embeds `re.findall(r'\[(\d+)\]', text)`: left-to-right non-overlapping scan;
a match is `[`, a non-empty maximal digit run, `]` (fuel-bounded scan). -/
def citationMatchesAux : Nat → List Char → List Nat
  | 0, _ => []
  | _ + 1, [] => []
  | fuel + 1, c :: t =>
    if c = '[' then
      match t.dropWhile Char.isDigit with
      | ']' :: rest =>
        if t.takeWhile Char.isDigit ≠ [] then
          digitsToNat (t.takeWhile Char.isDigit) :: citationMatchesAux fuel rest
        else citationMatchesAux fuel t
      | _ => citationMatchesAux fuel t
    else citationMatchesAux fuel t

/-- All citation matches of an answer text. -/
def citationMatches (l : List Char) : List Nat :=
  citationMatchesAux (l.length + 1) l

/-- Embeds `LLMService._extract_citations`: `sorted(set(matches))`. -/
def extractCitations (text : String) : List Nat :=
  List.insertionSort (· ≤ ·) ((citationMatches text.data).dedup)

/-! ## Concrete candidates used by counterexamples and witnesses -/

def docA : PyDoc := { text := "A", document_id := some "a", chunk_index := some 0 }

def docB : PyDoc := { text := "B", document_id := some "b", chunk_index := some 0 }

/-- A fragment indexed with no tenant tag. -/
def docU : PyDoc := { text := "x" }

/-- A candidate carrying only a backend point id (`pk`) as identity. -/
def docP : PyDoc := { text := "A", pk := some "pa" }

/-- A second candidate with a distinct `pk` identity. -/
def docQ : PyDoc := { text := "B", pk := some "pb" }

/-- Embeds `merged_scores[key]` of the fusion dictionaries (0 when absent). -/
def scoreOf (m : List FusedEntry) (kk : String) : ℚ :=
  ((m.find? (fun e => e.key = kk)).map FusedEntry.score).getD 0

/-- Embeds `merged_docs[key]` of the fusion dictionaries. -/
def docOf (m : List FusedEntry) (kk : String) : Option PyDoc :=
  (m.find? (fun e => e.key = kk)).map FusedEntry.doc

/-- Total RRF contribution accumulated for key `kk` by one pass over a
ranked key list whose first element has rank `r`. -/
def contribFrom (w : ℚ) (k : Nat) (kk : String) : Nat → List String → ℚ
  | _, [] => 0
  | r, x :: xs =>
    (if x = kk then w * (1 / ((k : ℚ) + r + 1)) else 0)
      + contribFrom w k kk (r + 1) xs

/-! ## Theorems -/

/-- Claim C1, counterexample: the spec predicts `recommendedK = 11` for a
26-word `general` query (base 5, +2 and +4 cumulative), but the source's
`elif` makes the `+4` branch unreachable and the code yields 7. -/
theorem c1_counterexample :
    analyze q26 = ⟨"general", 7⟩ ∧
    specRecommendedK 5 (pyWordCount (pyStripLower q26)) = 11 ∧
    (7 : Nat) ≠ 11 := by
  refine ⟨by decide, by decide, by decide⟩

/-- Claim C1, amended: `recommendedK` is the base K of the classified type
plus 2 exactly when the word count exceeds 15 — the `+4` adjustment for
word counts above 25 is dead code (`elif` after a weaker `if`) — capped at
15; in particular a 26-word `general` query yields 7. -/
theorem c1_recommended_k_amended :
    (∀ (queryType : String) (q : List Char),
      getRecommendedK queryType q
        = min (kMap queryType + (if pyWordCount q > 15 then 2 else 0)) 15) ∧
    analyze q26 = ⟨"general", 7⟩ := by
  constructor
  · intro queryType q
    unfold getRecommendedK
    by_cases h15 : pyWordCount q > 15
    · simp [h15]
    · have h25 : ¬ pyWordCount q > 25 := by omega
      simp [h15, h25]
  · decide

/-- Claim C2, evaluated at the failing input: with `maxSize = 10`,
`overlapSize = 5`, `minSize = 1`, chunking a 20-character text with no
sentence boundary produces a single 20-character fragment, exceeding
`maxSize + overlapSize = 15` (a lone sentence longer than `maxSize`
becomes a chunk of its own, with no size cap at all). -/
theorem c2_code_bug_eval :
    (chunkTexts 10 5 1 "abcdefghijklmnopqrst").map List.length = [20] ∧
    ¬ (20 ≤ 10 + 5) := by
  exact ⟨by decide, by decide⟩

/-- Claim C10: a payload `top_k` of 5 (the schema default, hence also the
omitted case) always yields the analyzer's `recommended_k`; any other
value overrides the analyzer; and no payload value forces an effective
retrieval breadth of exactly 5 on every query. -/
theorem c10_top_k_default :
    (∀ q : String,
      effectiveTopK askRequestDefaultTopK q = ((analyze q).recommended_k : Int) ∧
      effectiveTopK 5 q = ((analyze q).recommended_k : Int)) ∧
    (∀ t : Int, t ≠ 5 → ∀ q : String, effectiveTopK t q = t) ∧
    (∀ t : Int, ∃ q : String, effectiveTopK t q ≠ 5) := by
  refine ⟨fun q => ⟨?_, ?_⟩, fun t ht q => ?_, fun t => ?_⟩
  · simp [effectiveTopK, askRequestDefaultTopK]
  · simp [effectiveTopK]
  · simp [effectiveTopK, ht]
  · by_cases ht : t = 5
    · refine ⟨"quando", ?_⟩
      subst ht
      decide
    · exact ⟨"", by simp [effectiveTopK, ht]⟩

/-- Witness for C10 at concrete inputs. -/
theorem c10_top_k_default_witness :
    effectiveTopK 7 "xyz" = 7 := by
  exact c10_top_k_default.2.1 7 (by decide) "xyz"

theorem rerank_mutated_eq_map (predict : String → String → ℚ) (query : String)
    (chunks : List PyDoc) (topK : Nat) (scoreThreshold : ℚ) :
    (rerank predict query chunks topK scoreThreshold).1
      = rerankScored predict query chunks := by
  unfold rerank
  split
  · rename_i h
    subst h
    rfl
  · rfl

/-- Claim C9: `rerank` writes a `rerank_score` into every candidate of the
list passed in — including candidates later filtered out or truncated away
— and modifies no other field. -/
theorem c9_rerank_mutation :
    ∀ (predict : String → String → ℚ) (query : String) (chunks : List PyDoc)
      (topK : Nat) (scoreThreshold : ℚ),
    List.Forall₂
      (fun orig upd : PyDoc =>
        upd.rerank_score = some (predict query orig.text) ∧
        upd.text = orig.text ∧ upd.document_id = orig.document_id ∧
        upd.chunk_index = orig.chunk_index ∧ upd.pk = orig.pk ∧
        upd.id = orig.id ∧ upd.tenant_id = orig.tenant_id ∧
        upd.source = orig.source ∧ upd.bm25_score = orig.bm25_score ∧
        upd.rrf_score = orig.rrf_score ∧ upd.score = orig.score)
      chunks ((rerank predict query chunks topK scoreThreshold).1) := by
  intro predict query chunks topK scoreThreshold
  rw [rerank_mutated_eq_map]
  unfold rerankScored
  induction chunks with
  | nil => exact List.Forall₂.nil
  | cons c cs ih =>
    exact List.Forall₂.cons (by simp) ih

theorem rerank_result_sorted (predict : String → String → ℚ) (query : String)
    (chunks : List PyDoc) (topK : Nat) (scoreThreshold : ℚ) :
    ((rerank predict query chunks topK scoreThreshold).2).Pairwise
      (fun a b : PyDoc => b.rerank_score.getD 0 ≤ a.rerank_score.getD 0) := by
  unfold rerank
  split
  · simp
  · apply List.Pairwise.sublist (List.take_sublist _ _)
    haveI : IsTotal PyDoc
        (fun a b : PyDoc => b.rerank_score.getD 0 ≤ a.rerank_score.getD 0) :=
      ⟨fun _ _ => le_total _ _⟩
    haveI : IsTrans PyDoc
        (fun a b : PyDoc => b.rerank_score.getD 0 ≤ a.rerank_score.getD 0) :=
      ⟨fun _ _ _ h1 h2 => le_trans h2 h1⟩
    exact List.sorted_insertionSort _ _

theorem rerank_result_length (predict : String → String → ℚ) (query : String)
    (chunks : List PyDoc) (topK : Nat) (scoreThreshold : ℚ) :
    ((rerank predict query chunks topK scoreThreshold).2).length
      = min topK
          (chunks.countP (fun c => decide (scoreThreshold ≤ predict query c.text))) := by
  unfold rerank
  split
  · rename_i h
    subst h
    simp
  · rw [List.length_take, List.length_insertionSort,
        ← List.countP_eq_length_filter]
    unfold rerankScored
    rw [List.countP_map]
    rfl

/-- Claim C6, counterexample: with threshold 1, two candidates scoring
exactly 1, and `topK = 5`, the code returns both candidates (the filter is
`>=`), while the claim's `min(topK, #candidates strictly above the
threshold)` is 0; the returned scores `[1, 1]` are also not strictly
descending. -/
theorem c6_counterexample :
    ((rerank (fun _ _ => (1 : ℚ)) "q" [docA, docB] 5 1).2).length = 2 ∧
    min 5 (List.countP (fun c => decide ((1 : ℚ) < (fun (_ : String) (_ : String) => (1 : ℚ)) "q" c.text)) [docA, docB]) = 0 ∧
    ((rerank (fun _ _ => (1 : ℚ)) "q" [docA, docB] 5 1).2).map
        (fun c => c.rerank_score) = [some 1, some 1] ∧
    ¬ ((1 : ℚ) < 1) := by
  refine ⟨by decide, by decide, by decide, by decide⟩

/-- Claim C6, amended: the rerank output is sorted in non-increasing (not
necessarily strictly decreasing) `rerank_score` order, and its length is
exactly `min(topK, #candidates with rerank_score ≥ scoreThreshold)` (the
filter keeps scores equal to the threshold). -/
theorem c6_rerank_output_amended :
    ∀ (predict : String → String → ℚ) (query : String) (chunks : List PyDoc)
      (topK : Nat) (scoreThreshold : ℚ),
    ((rerank predict query chunks topK scoreThreshold).2).Pairwise
      (fun a b : PyDoc => b.rerank_score.getD 0 ≤ a.rerank_score.getD 0) ∧
    ((rerank predict query chunks topK scoreThreshold).2).length
      = min topK
          (chunks.countP (fun c => decide (scoreThreshold ≤ predict query c.text))) := by
  intro predict query chunks topK scoreThreshold
  exact ⟨rerank_result_sorted .., rerank_result_length ..⟩

/-- Claim C3, counterexample: with hybrid mode enabled, the returned
sequence is ordered by the cross-encoder's rerank score, which can invert
the fused (RRF) order: for a vector list `[docP, docQ]` (fused scores 1/61
and 1/62) and a cross-encoder preferring `docQ`, the returned `rrf_score`
sequence is `[1/62, 1/61]`, which is increasing. -/
theorem c3_counterexample :
    (hybridSearch true (fun _ => 0) (fun _ => [docP, docQ]) (fun _ => [])
      (fun _ t => if t = "B" then 1 else 0) "q" 2 1 1 60).map
      (fun d => d.rrf_score) = [some (1/62), some (1/61)] ∧
    ¬ ((1 : ℚ)/61 ≤ 1/62) := by
  constructor
  · norm_num +decide [hybridSearch, reciprocalRankFusion, fusedEntries,
      processList, getUniqueKey, docP, docQ, containsKey, bumpEntry,
      setSource, List.insertionSort, List.orderedInsert, rerank, rerankScored]
  · norm_num

/-- Claim C3, amended: with hybrid mode enabled, the sequence
`HybridSearchService.hybrid_search` returns is monotonically non-increasing
in `rerank_score` (the quantity it is actually sorted by after reranking),
not in `fusedScore`. -/
theorem c3_rerank_order_amended :
    ∀ (hybridEnabled : Bool) (pyHash : String → Int)
      (vecSearch bmSearch : Nat → List PyDoc)
      (predict : String → String → ℚ) (query : String) (topK : Nat)
      (vectorWeight bm25Weight : ℚ) (rrfK : Nat),
      hybridEnabled = true →
      (hybridSearch hybridEnabled pyHash vecSearch bmSearch predict query
        topK vectorWeight bm25Weight rrfK).Pairwise
        (fun a b : PyDoc => b.rerank_score.getD 0 ≤ a.rerank_score.getD 0) := by
  intro he ph vs bs pr q k vw bw rk h
  subst h
  unfold hybridSearch
  simp only [Bool.not_true, Bool.false_eq_true, if_false]
  exact rerank_result_sorted ..

/-- Witness for C3 (amended) at concrete inputs. -/
theorem c3_rerank_order_amended_witness :
    (hybridSearch true (fun _ => 0) (fun _ => [docP]) (fun _ => [])
      (fun _ _ => 0) "q" 1 1 1 60).Pairwise
      (fun a b : PyDoc => b.rerank_score.getD 0 ≤ a.rerank_score.getD 0) :=
  c3_rerank_order_amended true (fun _ => 0) (fun _ => [docP]) (fun _ => [])
    (fun _ _ => 0) "q" 1 1 1 60 rfl

/-- Claim C5, counterexample: a fragment indexed with no tenant tag is
returned under tenant filter 2 (the filter only excludes fragments tagged
with a different tenant), so not every returned fragment has a tenant tag
equal to the filter. -/
theorem c5_counterexample :
    (bm25Search [docU] [1] 10 (some 2)).map (fun d => d.tenant_id) = [none] ∧
    (none : Option Int) ≠ some 2 := by
  exact ⟨by decide, by decide⟩

/-- Claim C5, amended: under a tenant filter, every fragment
`BM25Service.search` returns either carries exactly the filtered tenant's
tag or carries no tenant tag at all (untagged fragments pass every
filter). -/
theorem c5_tenant_postfilter_amended :
    ∀ (metadata : List PyDoc) (scores : List ℚ) (topK : Nat) (t : Int)
      (d : PyDoc),
      d ∈ bm25Search metadata scores topK (some t) →
      d.tenant_id = some t ∨ d.tenant_id = none := by
  intro metadata scores topK t d hd
  unfold bm25Search at hd
  have hd2 := List.mem_of_mem_take hd
  rw [List.mem_insertionSort, List.mem_filterMap] at hd2
  obtain ⟨p, _, hp⟩ := hd2
  rcases hpt : p.1.tenant_id with _ | dt
  · rw [hpt] at hp
    simp only [if_true] at hp
    split_ifs at hp
    injection hp with hp
    subst hp
    right
    exact hpt
  · rw [hpt] at hp
    by_cases hdt : dt = t
    · subst hdt
      rw [if_pos (by simp)] at hp
      split_ifs at hp
      injection hp with hp
      subst hp
      left
      exact hpt
    · rw [if_neg (by simp [hdt])] at hp
      exact absurd hp (by simp)

/-- Witness for C5 (amended) at concrete inputs. -/
theorem c5_tenant_postfilter_amended_witness :
    ({ docU with bm25_score := some 1, score := some 1 } : PyDoc).tenant_id = some 2 ∨
    ({ docU with bm25_score := some 1, score := some 1 } : PyDoc).tenant_id = none :=
  c5_tenant_postfilter_amended [docU] [1] 10 2 _ (by decide)

/-- Claim C7: the rewriter returns either a collaborator rewrite that was
accepted (non-empty and longer than 5 characters after stripping) or the
original query unchanged; and whenever the generation call raises (every
call returns an error), the original query is returned — an exception is
never propagated (the embedding is a total function into `String`). -/
theorem c7_rewrite_never_fails :
    ∀ (generateRaw : String → Except String String) (currentQuery : String)
      (history : List (String × String)) (maxHistoryTurns : Nat),
      (rewriteWithContext generateRaw currentQuery history maxHistoryTurns
          = currentQuery ∨
        ∃ p r, generateRaw p = Except.ok r ∧
          rewriteWithContext generateRaw currentQuery history maxHistoryTurns
            = r.trim ∧ r.trim ≠ "" ∧ r.trim.length > 5) ∧
      ((∀ p, ∃ e, generateRaw p = Except.error e) →
        rewriteWithContext generateRaw currentQuery history maxHistoryTurns
          = currentQuery) := by
  intro gen q hist mt
  constructor
  · by_cases h1 : hist = []
    · exact Or.inl (by simp [rewriteWithContext, h1])
    · by_cases h2 : isFollowupQuestion q
      · rcases hg : gen (buildRewritePrompt
            (buildHistoryText (recentHistory hist mt)) q) with e | r
        · exact Or.inl (by simp [rewriteWithContext, h1, h2, hg])
        · by_cases h3 : r.trim ≠ "" ∧ r.trim.length > 5
          · exact Or.inr ⟨_, r, hg,
              by simp [rewriteWithContext, h1, h2, hg, h3.1, h3.2], h3.1, h3.2⟩
          · exact Or.inl (by simp [rewriteWithContext, h1, h2, hg, h3])
      · exact Or.inl (by simp [rewriteWithContext, h1, h2])
  · intro hall
    obtain ⟨e, he⟩ := hall (buildRewritePrompt
      (buildHistoryText (recentHistory hist mt)) q)
    by_cases h1 : hist = []
    · simp [rewriteWithContext, h1]
    · by_cases h2 : isFollowupQuestion q
      · simp [rewriteWithContext, h1, h2, he]
      · simp [rewriteWithContext, h1, h2]

/-- Witness for C7: a collaborator that always raises yields the original
query unchanged. -/
theorem c7_rewrite_never_fails_witness :
    rewriteWithContext (fun _ => Except.error "timeout") "e isso?"
      [("user", "qual a política de férias?")] 3 = "e isso?" :=
  (c7_rewrite_never_fails (fun _ => Except.error "timeout") "e isso?"
    [("user", "qual a política de férias?")] 3).2 (fun _ => ⟨"timeout", rfl⟩)

/-- Claim C8: citation extraction returns the integers matched inside
square brackets, deduplicated and sorted strictly ascending; on
`"Resposta [1] e [3]... [1]"` it yields `[1, 3]`. -/
theorem c8_citations :
    extractCitations "Resposta [1] e [3]... [1]" = [1, 3] ∧
    ∀ text : String,
      (extractCitations text).Pairwise (· < ·) ∧
      ∀ n : Nat, (n ∈ extractCitations text ↔ n ∈ citationMatches text.data) := by
  constructor
  · decide
  · intro text
    constructor
    · have hs : (extractCitations text).Pairwise (· ≤ ·) :=
        List.sorted_insertionSort _ _
      have hn : (extractCitations text).Pairwise (· ≠ ·) :=
        (List.perm_insertionSort (· ≤ ·) _).symm.nodup
          (List.nodup_dedup (citationMatches text.data))
      exact (hs.and hn).imp (fun h => lt_of_le_of_ne h.1 h.2)
    · intro n
      unfold extractCitations
      rw [List.mem_insertionSort, List.mem_dedup]

theorem containsKey_false_iff (m : List FusedEntry) (kk : String) :
    containsKey m kk = false ↔ ∀ e ∈ m, e.key ≠ kk := by
  unfold containsKey
  rw [← Bool.not_eq_true, List.any_eq_true]
  simp

theorem find?_eq_none_of_not_contains {m : List FusedEntry} {kk : String}
    (h : containsKey m kk = false) :
    m.find? (fun e => e.key = kk) = none := by
  rw [List.find?_eq_none]
  intro e he
  simp [(containsKey_false_iff m kk).1 h e he]

theorem scoreOf_not_contains {m : List FusedEntry} {kk : String}
    (h : containsKey m kk = false) : scoreOf m kk = 0 := by
  unfold scoreOf
  rw [find?_eq_none_of_not_contains h]
  rfl

theorem scoreOf_append_of_contains {m : List FusedEntry} {kk : String}
    (l : List FusedEntry) (h : containsKey m kk = true) :
    scoreOf (m ++ l) kk = scoreOf m kk := by
  unfold containsKey at h
  rw [List.any_eq_true] at h
  obtain ⟨e, he, hk⟩ := h
  have hsome : (m.find? (fun e => e.key = kk)).isSome := by
    rw [List.find?_isSome]
    exact ⟨e, he, hk⟩
  unfold scoreOf
  rw [List.find?_append]
  obtain ⟨x, hx⟩ := Option.isSome_iff_exists.1 hsome
  rw [hx]
  rfl

theorem docOf_append_of_contains {m : List FusedEntry} {kk : String}
    (l : List FusedEntry) (h : containsKey m kk = true) :
    docOf (m ++ l) kk = docOf m kk := by
  unfold containsKey at h
  rw [List.any_eq_true] at h
  obtain ⟨e, he, hk⟩ := h
  have hsome : (m.find? (fun e => e.key = kk)).isSome := by
    rw [List.find?_isSome]
    exact ⟨e, he, hk⟩
  unfold docOf
  rw [List.find?_append]
  obtain ⟨x, hx⟩ := Option.isSome_iff_exists.1 hsome
  rw [hx]
  rfl

theorem scoreOf_append_new {m : List FusedEntry} {kk : String}
    (e : FusedEntry) (h : containsKey m kk = false) :
    scoreOf (m ++ [e]) kk = if e.key = kk then e.score else 0 := by
  unfold scoreOf
  rw [List.find?_append, find?_eq_none_of_not_contains h]
  by_cases hk : e.key = kk
  · simp [List.find?, hk]
  · simp [List.find?, hk]

theorem docOf_append_new {m : List FusedEntry} {kk : String}
    (e : FusedEntry) (h : containsKey m kk = false) :
    docOf (m ++ [e]) kk = if e.key = kk then some e.doc else none := by
  unfold docOf
  rw [List.find?_append, find?_eq_none_of_not_contains h]
  by_cases hk : e.key = kk
  · simp [List.find?, hk]
  · simp [List.find?, hk]

theorem docOf_append_ne {m : List FusedEntry} {kk : String}
    {e : FusedEntry} (h : e.key ≠ kk) :
    docOf (m ++ [e]) kk = docOf m kk := by
  unfold docOf
  rw [List.find?_append]
  have : ([e].find? (fun x => x.key = kk)) = none := by
    simp [List.find?, h]
  rw [this]
  cases m.find? (fun x => x.key = kk) <;> rfl

theorem containsKey_append (m : List FusedEntry) (e : FusedEntry) (kk : String) :
    containsKey (m ++ [e]) kk = (containsKey m kk || decide (e.key = kk)) := by
  unfold containsKey
  simp [List.any_append]


theorem scoreOf_cons_eq {e : FusedEntry} {kk : String} (es : List FusedEntry)
    (h : e.key = kk) : scoreOf (e :: es) kk = e.score := by
  unfold scoreOf
  rw [List.find?_cons_of_pos _ (by simp [h])]
  rfl

theorem scoreOf_cons_ne {e : FusedEntry} {kk : String} (es : List FusedEntry)
    (h : ¬ e.key = kk) : scoreOf (e :: es) kk = scoreOf es kk := by
  unfold scoreOf
  rw [List.find?_cons_of_neg _ (by simp [h])]

theorem docOf_cons_eq {e : FusedEntry} {kk : String} (es : List FusedEntry)
    (h : e.key = kk) : docOf (e :: es) kk = some e.doc := by
  unfold docOf
  rw [List.find?_cons_of_pos _ (by simp [h])]
  rfl

theorem docOf_cons_ne {e : FusedEntry} {kk : String} (es : List FusedEntry)
    (h : ¬ e.key = kk) : docOf (e :: es) kk = docOf es kk := by
  unfold docOf
  rw [List.find?_cons_of_neg _ (by simp [h])]

theorem containsKey_cons (e : FusedEntry) (es : List FusedEntry) (kk : String) :
    containsKey (e :: es) kk = (decide (e.key = kk) || containsKey es kk) := by
  unfold containsKey
  simp

theorem containsKey_bumpEntry (kh : String) (sc : ℚ) (mh : Bool)
    (m : List FusedEntry) (kk : String) :
    containsKey (bumpEntry kh sc mh m) kk = containsKey m kk := by
  induction m with
  | nil => rfl
  | cons e es ih =>
    unfold bumpEntry
    by_cases he : e.key = kh
    · rw [if_pos he, containsKey_cons, containsKey_cons]
    · rw [if_neg he, containsKey_cons, containsKey_cons, ih]

theorem scoreOf_bumpEntry {m : List FusedEntry} {kh : String}
    (sc : ℚ) (mh : Bool) (kk : String) (h : containsKey m kh = true) :
    scoreOf (bumpEntry kh sc mh m) kk
      = scoreOf m kk + if kh = kk then sc else 0 := by
  induction m with
  | nil => simp [containsKey] at h
  | cons e es ih =>
    unfold bumpEntry
    by_cases he : e.key = kh
    · rw [if_pos he]
      by_cases hke : e.key = kk
      · have hkk : kh = kk := he.symm.trans hke
        simp [scoreOf, List.find?, hke, hkk]
      · have hkk : ¬ kh = kk := fun hx => hke (he.symm ▸ hx)
        simp [scoreOf, List.find?, hke, hkk]
    · rw [if_neg he]
      have h' : containsKey es kh = true := by
        rw [containsKey_cons] at h
        rcases Bool.or_eq_true_iff.1 h with h1 | h1
        · exact absurd (of_decide_eq_true h1) he
        · exact h1
      by_cases hke : e.key = kk
      · have hkk : ¬ kh = kk := fun hx => he (hke.trans hx.symm)
        simp [scoreOf, List.find?, hke, hkk]
      · simp only [scoreOf, List.find?, hke, decide_eq_true_eq, if_neg hke]
        have := ih h'
        simp only [scoreOf] at this
        simpa [List.find?, hke] using this

theorem docOf_bumpEntry_ne {kh kk : String} (sc : ℚ) (mh : Bool)
    (m : List FusedEntry) (h : kh ≠ kk) :
    docOf (bumpEntry kh sc mh m) kk = docOf m kk := by
  induction m with
  | nil => rfl
  | cons e es ih =>
    unfold bumpEntry
    by_cases he : e.key = kh
    · rw [if_pos he]
      have hke : ¬ e.key = kk := fun hx => h (he.symm.trans hx)
      simp [docOf, List.find?, hke]
    · rw [if_neg he]
      by_cases hke : e.key = kk
      · simp [docOf, List.find?, hke]
      · have := ih
        simp only [docOf] at this
        simpa [docOf, List.find?, hke] using this

theorem docOf_bumpEntry_false (kh : String) (sc : ℚ)
    (m : List FusedEntry) (kk : String) :
    docOf (bumpEntry kh sc false m) kk = docOf m kk := by
  induction m with
  | nil => rfl
  | cons e es ih =>
    unfold bumpEntry
    by_cases he : e.key = kh
    · rw [if_pos he]
      by_cases hke : e.key = kk
      · simp [docOf, List.find?, hke]
      · simp [docOf, List.find?, hke]
    · rw [if_neg he]
      by_cases hke : e.key = kk
      · simp [docOf, List.find?, hke]
      · have := ih
        simp only [docOf] at this
        simpa [docOf, List.find?, hke] using this

theorem docOf_bumpEntry_hybrid {m : List FusedEntry} {kk : String}
    (sc : ℚ) (h : containsKey m kk = true) :
    docOf (bumpEntry kk sc true m) kk
      = (docOf m kk).map (setSource "hybrid") := by
  induction m with
  | nil => simp [containsKey] at h
  | cons e es ih =>
    unfold bumpEntry
    by_cases he : e.key = kk
    · rw [if_pos he]
      simp [docOf, List.find?, he]
    · rw [if_neg he]
      have h' : containsKey es kk = true := by
        rw [containsKey_cons] at h
        rcases Bool.or_eq_true_iff.1 h with h1 | h1
        · exact absurd (of_decide_eq_true h1) he
        · exact h1
      have := ih h'
      simp only [docOf] at this
      simpa [docOf, List.find?, he] using this

theorem scoreOf_update_step (m : List FusedEntry) (kk' kk : String) (sc : ℚ)
    (mh : Bool) (d' : PyDoc) :
    scoreOf (if containsKey m kk' then bumpEntry kk' sc mh m
             else m ++ [⟨kk', sc, d'⟩]) kk
      = scoreOf m kk + if kk' = kk then sc else 0 := by
  by_cases hc : containsKey m kk'
  · rw [if_pos hc, scoreOf_bumpEntry sc mh kk hc]
  · have hcf : containsKey m kk' = false := by simpa using hc
    rw [if_neg hc]
    by_cases hk : kk' = kk
    · subst hk
      rw [scoreOf_append_new _ hcf, scoreOf_not_contains hcf]
      simp
    · by_cases hck : containsKey m kk
      · rw [scoreOf_append_of_contains _ hck]
        simp [hk]
      · have hckf : containsKey m kk = false := by simpa using hck
        rw [scoreOf_append_new _ hckf, scoreOf_not_contains hckf]
        simp [hk]

theorem scoreOf_processList (kf : PyDoc → String) (w : ℚ) (k : Nat)
    (tag : String) (mh : Bool) (kk : String) :
    ∀ (ds : List PyDoc) (r : Nat) (m : List FusedEntry),
    scoreOf (processList kf w k tag mh r ds m) kk
      = scoreOf m kk + contribFrom w k kk r (ds.map kf) := by
  intro ds
  induction ds with
  | nil => intro r m; simp [processList, contribFrom]
  | cons d ds ih =>
    intro r m
    unfold processList
    rw [ih (r + 1) _, scoreOf_update_step]
    simp only [List.map_cons, contribFrom]
    ring

theorem containsKey_processList (kf : PyDoc → String) (w : ℚ) (k : Nat)
    (tag : String) (mh : Bool) (kk : String) :
    ∀ (ds : List PyDoc) (r : Nat) (m : List FusedEntry),
    containsKey (processList kf w k tag mh r ds m) kk
      = (containsKey m kk || decide (kk ∈ ds.map kf)) := by
  intro ds
  induction ds with
  | nil => intro r m; simp [processList]
  | cons d ds ih =>
    intro r m
    unfold processList
    rw [ih (r + 1) _]
    by_cases hc : containsKey m (kf d)
    · rw [if_pos hc, containsKey_bumpEntry]
      by_cases hkd : kk = kf d
      · have : containsKey m kk = true := hkd ▸ hc
        simp [this]
      · simp [List.mem_cons, hkd]
    · rw [if_neg hc, containsKey_append]
      by_cases hkd : kk = kf d
      · subst hkd
        simp [List.mem_cons]
      · have : ¬ (kf d = kk) := fun hx => hkd hx.symm
        simp [List.mem_cons, hkd, this]

theorem docOf_processList_not_mem (kf : PyDoc → String) (w : ℚ) (k : Nat)
    (tag : String) (mh : Bool) (kk : String) :
    ∀ (ds : List PyDoc) (r : Nat) (m : List FusedEntry),
    kk ∉ ds.map kf →
    docOf (processList kf w k tag mh r ds m) kk = docOf m kk := by
  intro ds
  induction ds with
  | nil => intro r m _; simp [processList]
  | cons d ds ih =>
    intro r m hmem
    have h1 : ¬ (kk = kf d) ∧ kk ∉ ds.map kf := by
      simpa [List.mem_cons, not_or] using hmem
    have h1' : kf d ≠ kk := fun hx => h1.1 hx.symm
    unfold processList
    rw [ih (r + 1) _ h1.2]
    by_cases hc : containsKey m (kf d)
    · rw [if_pos hc, docOf_bumpEntry_ne _ _ _ h1']
    · rw [if_neg hc, docOf_append_ne h1']

theorem docOf_processList_contained (kf : PyDoc → String) (w : ℚ) (k : Nat)
    (tag : String) (kk : String) :
    ∀ (ds : List PyDoc) (r : Nat) (m : List FusedEntry),
    containsKey m kk = true →
    docOf (processList kf w k tag false r ds m) kk = docOf m kk := by
  intro ds
  induction ds with
  | nil => intro r m _; simp [processList]
  | cons d ds ih =>
    intro r m hck
    simp only [processList]
    by_cases hc : containsKey m (kf d)
    · rw [if_pos hc, ih (r + 1) _ (by rw [containsKey_bumpEntry]; exact hck),
          docOf_bumpEntry_false]
    · have hne : kf d ≠ kk := by
        intro hx
        exact absurd (hx ▸ hck) (by simpa using hc)
      rw [if_neg hc,
          ih (r + 1) _ (by rw [containsKey_append, hck]; rfl),
          docOf_append_ne hne]

theorem docOf_processList_cons_new (kf : PyDoc → String) (w : ℚ) (k : Nat)
    (tag : String) (mh : Bool) (d : PyDoc) (ds : List PyDoc) (r : Nat)
    (m : List FusedEntry) (h1 : containsKey m (kf d) = false)
    (h2 : kf d ∉ ds.map kf) :
    docOf (processList kf w k tag mh r (d :: ds) m) (kf d)
      = some (setSource tag d) := by
  simp only [processList]
  rw [if_neg (by simp [h1]), docOf_processList_not_mem _ _ _ _ _ _ ds _ _ h2,
      docOf_append_new _ h1]
  simp

theorem docOf_processList_cons_hybrid (kf : PyDoc → String) (w : ℚ) (k : Nat)
    (tag : String) (d : PyDoc) (ds : List PyDoc) (r : Nat)
    (m : List FusedEntry) (h1 : containsKey m (kf d) = true)
    (h2 : kf d ∉ ds.map kf) :
    docOf (processList kf w k tag true r (d :: ds) m) (kf d)
      = (docOf m (kf d)).map (setSource "hybrid") := by
  simp only [processList]
  rw [if_pos (by simp [h1]), docOf_processList_not_mem _ _ _ _ _ _ ds _ _ h2,
      docOf_bumpEntry_hybrid _ h1]

theorem not_mem_keys_of_not_contains {m : List FusedEntry} {kk : String}
    (h : containsKey m kk = false) : kk ∉ m.map FusedEntry.key := by
  rw [List.mem_map]
  rintro ⟨e, he, hk⟩
  exact (containsKey_false_iff m kk).1 h e he hk

theorem map_key_bumpEntry (kh : String) (sc : ℚ) (mh : Bool)
    (m : List FusedEntry) :
    (bumpEntry kh sc mh m).map FusedEntry.key = m.map FusedEntry.key := by
  induction m with
  | nil => rfl
  | cons e es ih =>
    unfold bumpEntry
    by_cases he : e.key = kh
    · rw [if_pos he]
      simp
    · rw [if_neg he]
      simp [ih]

theorem nodupKeys_processList (kf : PyDoc → String) (w : ℚ) (k : Nat)
    (tag : String) (mh : Bool) :
    ∀ (ds : List PyDoc) (r : Nat) (m : List FusedEntry),
    (m.map FusedEntry.key).Nodup →
    ((processList kf w k tag mh r ds m).map FusedEntry.key).Nodup := by
  intro ds
  induction ds with
  | nil => intro r m hm; simpa [processList] using hm
  | cons d ds ih =>
    intro r m hm
    simp only [processList]
    by_cases hc : containsKey m (kf d)
    · rw [if_pos hc]
      exact ih (r + 1) _ (by rw [map_key_bumpEntry]; exact hm)
    · rw [if_neg hc]
      apply ih (r + 1)
      rw [List.map_append]
      rw [List.nodup_append]
      refine ⟨hm, List.nodup_singleton _, ?_⟩
      intro x hx
      have hcf : containsKey m (kf d) = false := by simpa using hc
      simp only [List.map_cons, List.map_nil, List.mem_singleton]
      intro hxe
      exact not_mem_keys_of_not_contains hcf (hxe ▸ hx)

theorem find_self_of_nodupKeys :
    ∀ (m : List FusedEntry), (m.map FusedEntry.key).Nodup →
    ∀ e ∈ m, m.find? (fun x => x.key = e.key) = some e := by
  intro m
  induction m with
  | nil => intro _ e he; cases he
  | cons f fs ih =>
    intro hn e he
    rw [List.map_cons, List.nodup_cons] at hn
    have hn' := hn
    rcases List.mem_cons.1 he with rfl | hmem
    · rw [List.find?_cons_of_pos _ (by simp)]
    · have hfk : ¬ f.key = e.key := by
        intro hx
        exact hn'.1 (hx ▸ List.mem_map.2 ⟨e, hmem, rfl⟩)
      rw [List.find?_cons_of_neg _ (by simp [hfk])]
      exact ih hn'.2 e hmem

theorem score_eq_scoreOf_of_mem {m : List FusedEntry} {e : FusedEntry}
    (hn : (m.map FusedEntry.key).Nodup) (he : e ∈ m) :
    e.score = scoreOf m e.key := by
  unfold scoreOf
  rw [find_self_of_nodupKeys m hn e he]
  rfl

theorem eq_of_mem_of_same_key {m : List FusedEntry} {e e' : FusedEntry}
    (hn : (m.map FusedEntry.key).Nodup) (he : e ∈ m) (he' : e' ∈ m)
    (hk : e'.key = e.key) : e' = e := by
  have h1 := find_self_of_nodupKeys m hn e he
  have h2 := find_self_of_nodupKeys m hn e' he'
  rw [hk] at h2
  rw [h1] at h2
  exact (Option.some.inj h2).symm

theorem contribFrom_nonneg {w : ℚ} (k : Nat) (kk : String) (hw : 0 ≤ w) :
    ∀ (keys : List String) (r : Nat), 0 ≤ contribFrom w k kk r keys := by
  intro keys
  induction keys with
  | nil => intro r; simp [contribFrom]
  | cons x xs ih =>
    intro r
    unfold contribFrom
    have h1 : (0 : ℚ) ≤ w * (1 / ((k : ℚ) + r + 1)) := by positivity
    have h2 := ih (r + 1)
    split <;> linarith

theorem contribFrom_of_not_mem {w : ℚ} {k : Nat} {kk : String} :
    ∀ {keys : List String} (r : Nat), kk ∉ keys →
    contribFrom w k kk r keys = 0 := by
  intro keys
  induction keys with
  | nil => intro r _; rfl
  | cons x xs ih =>
    intro r hmem
    have h1 : ¬ (kk = x) ∧ kk ∉ xs := by simpa [not_or] using hmem
    unfold contribFrom
    rw [if_neg (fun hx => h1.1 hx.symm), ih (r + 1) h1.2, add_zero]

theorem contribFrom_le {w : ℚ} (k : Nat) (kk : String) (hw : 0 ≤ w) :
    ∀ (keys : List String) (r : Nat), keys.Nodup →
    contribFrom w k kk r keys ≤ w * (1 / ((k : ℚ) + r + 1)) := by
  intro keys
  induction keys with
  | nil =>
    intro r _
    simp only [contribFrom]
    positivity
  | cons x xs ih =>
    intro r hn
    unfold contribFrom
    by_cases hx : x = kk
    · rw [if_pos hx,
          contribFrom_of_not_mem (r + 1) (hx ▸ (List.nodup_cons.1 hn).1),
          add_zero]
    · rw [if_neg hx, zero_add]
      calc contribFrom w k kk (r + 1) xs
          ≤ w * (1 / ((k : ℚ) + ((r + 1 : Nat) : ℚ) + 1)) :=
            ih (r + 1) (List.nodup_cons.1 hn).2
        _ ≤ w * (1 / ((k : ℚ) + r + 1)) := by
            apply mul_le_mul_of_nonneg_left _ hw
            apply one_div_le_one_div_of_le
            · positivity
            · push_cast
              linarith

theorem insertionSort_head_of_max (l : List FusedEntry) (e : FusedEntry)
    (he : e ∈ l) (hmax : ∀ x ∈ l, x ≠ e → x.score < e.score) :
    (List.insertionSort (fun a b : FusedEntry => b.score ≤ a.score) l).head?
      = some e := by
  haveI : IsTotal FusedEntry (fun a b : FusedEntry => b.score ≤ a.score) :=
    ⟨fun _ _ => le_total _ _⟩
  haveI : IsTrans FusedEntry (fun a b : FusedEntry => b.score ≤ a.score) :=
    ⟨fun _ _ _ h1 h2 => le_trans h2 h1⟩
  have hes : e ∈ List.insertionSort (fun a b : FusedEntry => b.score ≤ a.score) l :=
    (List.mem_insertionSort _).2 he
  have hsorted := List.sorted_insertionSort
    (fun a b : FusedEntry => b.score ≤ a.score) l
  rcases hs : List.insertionSort (fun a b : FusedEntry => b.score ≤ a.score) l with
    _ | ⟨h, t⟩
  · rw [hs] at hes
    cases hes
  · rw [hs] at hes hsorted
    have hh : h ∈ l := (List.mem_insertionSort _).1 (by rw [hs]; exact List.mem_cons_self h t)
    by_cases hhe : h = e
    · rw [hhe]
      rfl
    · exfalso
      rcases List.mem_cons.1 hes with rfl | het
    
      · exact hhe rfl
      · have h1 : e.score ≤ h.score := List.rel_of_sorted_cons hsorted e het
        have h2 : h.score < e.score := hmax h hh hhe
        linarith

theorem exists_find_of_contains {m : List FusedEntry} {kk : String}
    (h : containsKey m kk = true) :
    ∃ e, m.find? (fun x => x.key = kk) = some e ∧ e ∈ m ∧ e.key = kk := by
  unfold containsKey at h
  rw [List.any_eq_true] at h
  obtain ⟨x, hx, hk⟩ := h
  have hsome : (m.find? (fun x => x.key = kk)).isSome := by
    rw [List.find?_isSome]
    exact ⟨x, hx, hk⟩
  obtain ⟨e, he⟩ := Option.isSome_iff_exists.1 hsome
  refine ⟨e, he, List.mem_of_find?_eq_some he, ?_⟩
  have := List.find?_some he
  simpa using this

theorem scoreOf_fusedEntries_head_left (pyHash : String → Int)
    (a0 : PyDoc) (la' lb : List PyDoc)
    (hA : (((a0 :: la').map (getUniqueKey pyHash))).Nodup)
    (hBnot : getUniqueKey pyHash a0 ∉ lb.map (getUniqueKey pyHash)) :
    scoreOf (fusedEntries pyHash (a0 :: la') lb 60 1 1)
      (getUniqueKey pyHash a0) = 1/61 := by
  unfold fusedEntries
  rw [scoreOf_processList, contribFrom_of_not_mem 0 hBnot, add_zero,
      scoreOf_processList]
  rw [List.map_cons] at hA ⊢
  have hnot : getUniqueKey pyHash a0 ∉ la'.map (getUniqueKey pyHash) :=
    (List.nodup_cons.1 hA).1
  unfold contribFrom
  rw [if_pos rfl, contribFrom_of_not_mem 1 hnot]
  show (0 : ℚ) + (1 * (1 / (((60 : Nat) : ℚ) + ((0 : Nat) : ℚ) + 1)) + 0) = 1/61
  norm_num

theorem scoreOf_fusedEntries_shared (pyHash : String → Int)
    (a0 b0 : PyDoc) (la' lb' : List PyDoc)
    (hA : (((a0 :: la').map (getUniqueKey pyHash))).Nodup)
    (hB : (((b0 :: lb').map (getUniqueKey pyHash))).Nodup)
    (heq : getUniqueKey pyHash a0 = getUniqueKey pyHash b0) :
    scoreOf (fusedEntries pyHash (a0 :: la') (b0 :: lb') 60 1 1)
      (getUniqueKey pyHash a0) = 2/61 := by
  unfold fusedEntries
  rw [scoreOf_processList, scoreOf_processList]
  rw [List.map_cons] at hA ⊢
  rw [List.map_cons] at hB ⊢
  have hnotA : getUniqueKey pyHash a0 ∉ la'.map (getUniqueKey pyHash) :=
    (List.nodup_cons.1 hA).1
  have hnotB : getUniqueKey pyHash a0 ∉ lb'.map (getUniqueKey pyHash) :=
    heq ▸ (List.nodup_cons.1 hB).1
  unfold contribFrom
  rw [if_pos rfl, if_pos heq.symm, contribFrom_of_not_mem 1 hnotA,
      contribFrom_of_not_mem 1 hnotB]
  show (0 : ℚ) + (1 * (1 / (((60 : Nat) : ℚ) + ((0 : Nat) : ℚ) + 1)) + 0)
      + (1 * (1 / (((60 : Nat) : ℚ) + ((0 : Nat) : ℚ) + 1)) + 0) = 2/61
  norm_num

theorem scoreOf_fusedEntries_other_le (pyHash : String → Int)
    (a0 b0 : PyDoc) (la' lb' : List PyDoc)
    (hA : (((a0 :: la').map (getUniqueKey pyHash))).Nodup)
    (hB : (((b0 :: lb').map (getUniqueKey pyHash))).Nodup)
    (kk : String) (hkkA : kk ≠ getUniqueKey pyHash a0)
    (hkkB : kk ≠ getUniqueKey pyHash b0) :
    scoreOf (fusedEntries pyHash (a0 :: la') (b0 :: lb') 60 1 1) kk
      ≤ 1/31 := by
  unfold fusedEntries
  rw [scoreOf_processList, scoreOf_processList]
  rw [List.map_cons] at hA ⊢
  rw [List.map_cons] at hB ⊢
  unfold contribFrom
  rw [if_neg (fun hx => hkkA hx.symm), if_neg (fun hx => hkkB hx.symm),
      zero_add, zero_add]
  have hbA : contribFrom 1 60 kk 1 (la'.map (getUniqueKey pyHash))
      ≤ 1 * (1 / (((60 : Nat) : ℚ) + ((1 : Nat) : ℚ) + 1)) :=
    contribFrom_le 60 kk (by norm_num) _ 1 (List.nodup_cons.1 hA).2
  have hbB : contribFrom 1 60 kk 1 (lb'.map (getUniqueKey pyHash))
      ≤ 1 * (1 / (((60 : Nat) : ℚ) + ((1 : Nat) : ℚ) + 1)) :=
    contribFrom_le 60 kk (by norm_num) _ 1 (List.nodup_cons.1 hB).2
  have hval : (1 : ℚ) * (1 / (((60 : Nat) : ℚ) + ((1 : Nat) : ℚ) + 1)) = 1/62 := by
    norm_num
  rw [hval] at hbA hbB
  have hs0 : scoreOf ([] : List FusedEntry) kk = 0 := rfl
  rw [hs0]
  linarith

/-- Claim C4: with weights 1.0/1.0 and `rrfK = 60`, (i) for two candidate
lists with per-list-unique and cross-list-disjoint keys, the fused score
accumulated for the rank-0 item of either list is exactly `1/61`; (ii) an
item appearing at rank 0 of both lists accumulates exactly `2/61`, its
merged doc is tagged `hybrid`, and it is the first element of the fused
output — in particular it is ordered before every single-source item. -/
theorem c4_rrf_fusion :
    (∀ (pyHash : String → Int) (la lb : List PyDoc),
      (la.map (getUniqueKey pyHash)).Nodup →
      (lb.map (getUniqueKey pyHash)).Nodup →
      (∀ kk ∈ la.map (getUniqueKey pyHash), kk ∉ lb.map (getUniqueKey pyHash)) →
      (∀ a0, la.head? = some a0 →
        scoreOf (fusedEntries pyHash la lb 60 1 1) (getUniqueKey pyHash a0)
          = 1/61) ∧
      (∀ b0, lb.head? = some b0 →
        scoreOf (fusedEntries pyHash la lb 60 1 1) (getUniqueKey pyHash b0)
          = 1/61)) ∧
    (∀ (pyHash : String → Int) (la lb : List PyDoc) (a0 b0 : PyDoc),
      (la.map (getUniqueKey pyHash)).Nodup →
      (lb.map (getUniqueKey pyHash)).Nodup →
      la.head? = some a0 → lb.head? = some b0 →
      getUniqueKey pyHash a0 = getUniqueKey pyHash b0 →
      scoreOf (fusedEntries pyHash la lb 60 1 1) (getUniqueKey pyHash a0)
        = 2/61 ∧
      ∃ d, (reciprocalRankFusion pyHash la lb 60 1 1).head? = some d ∧
        d.rrf_score = some (2/61) ∧ d.source = some "hybrid") := by
  constructor
  · intro ph la lb hA hB hdisj
    constructor
    · intro a0 ha0
      cases la with
      | nil => simp at ha0
      | cons x la' =>
        have hx : x = a0 := by simpa using ha0
        subst hx
        exact scoreOf_fusedEntries_head_left ph x la' lb hA (hdisj _ (by simp))
    · intro b0 hb0
      cases lb with
      | nil => simp at hb0
      | cons y lb' =>
        have hy : y = b0 := by simpa using hb0
        subst hy
        have hnotA : getUniqueKey ph y ∉ la.map (getUniqueKey ph) := by
          intro hmem
          exact (hdisj _ hmem) (by simp)
        unfold fusedEntries
        rw [scoreOf_processList, scoreOf_processList,
            contribFrom_of_not_mem 0 hnotA]
        rw [List.map_cons] at hB ⊢
        unfold contribFrom
        rw [if_pos rfl, contribFrom_of_not_mem 1 (List.nodup_cons.1 hB).1]
        show (0 : ℚ) + 0
            + (1 * (1 / (((60 : Nat) : ℚ) + ((0 : Nat) : ℚ) + 1)) + 0) = 1/61
        norm_num
  · intro ph la lb a0 b0 hA hB ha0 hb0 heq
    cases la with
    | nil => simp at ha0
    | cons x la' =>
    cases lb with
    | nil => simp at hb0
    | cons y lb' =>
    have hx : x = a0 := by simpa using ha0
    have hy : y = b0 := by simpa using hb0
    subst hx
    subst hy
    have hscore := scoreOf_fusedEntries_shared ph x y la' lb' hA hB heq
    refine ⟨hscore, ?_⟩
    have hmemA : getUniqueKey ph y ∈ (x :: la').map (getUniqueKey ph) :=
      List.mem_map.2 ⟨x, List.mem_cons_self x la', heq⟩
    have hm1ck : containsKey
        (processList (getUniqueKey ph) 1 60 "vector" false 0 (x :: la') [])
        (getUniqueKey ph y) = true := by
      rw [containsKey_processList, decide_eq_true hmemA]
      rw [Bool.or_true]
    have hm2ck : containsKey (fusedEntries ph (x :: la') (y :: lb') 60 1 1)
        (getUniqueKey ph x) = true := by
      unfold fusedEntries
      rw [containsKey_processList, heq, hm1ck]
      rfl
    obtain ⟨e, hfind, hmem, hkey⟩ := exists_find_of_contains hm2ck
    have hnodup2 : ((fusedEntries ph (x :: la') (y :: lb') 60 1 1).map
        FusedEntry.key).Nodup := by
      unfold fusedEntries
      exact nodupKeys_processList _ _ _ _ _ _ 0 _
        (nodupKeys_processList _ _ _ _ _ _ 0 _ (by simp))
    have hescore : e.score = 2/61 := by
      have h1 := score_eq_scoreOf_of_mem hnodup2 hmem
      rw [hkey] at h1
      rw [h1, hscore]
    have hB' := hB
    rw [List.map_cons] at hB'
    have hdoc2 : docOf (fusedEntries ph (x :: la') (y :: lb') 60 1 1)
        (getUniqueKey ph y)
        = (docOf (processList (getUniqueKey ph) 1 60 "vector" false 0
            (x :: la') []) (getUniqueKey ph y)).map (setSource "hybrid") := by
      unfold fusedEntries
      exact docOf_processList_cons_hybrid (getUniqueKey ph) 1 60 "bm25" y lb'
        0 _ hm1ck (List.nodup_cons.1 hB').1
    obtain ⟨e1, hfind1, _, _⟩ := exists_find_of_contains hm1ck
    have hdoc1 : docOf (processList (getUniqueKey ph) 1 60 "vector" false 0
        (x :: la') []) (getUniqueKey ph y) = some e1.doc := by
      unfold docOf
      rw [hfind1]
      rfl
    have hdocE : docOf (fusedEntries ph (x :: la') (y :: lb') 60 1 1)
        (getUniqueKey ph x) = some e.doc := by
      unfold docOf
      rw [hfind]
      rfl
    have hsrc : e.doc.source = some "hybrid" := by
      rw [heq, hdoc2, hdoc1] at hdocE
      rw [Option.map_some'] at hdocE
      have h2 := Option.some.inj hdocE
      rw [← h2]
      rfl
    have hmax : ∀ z ∈ fusedEntries ph (x :: la') (y :: lb') 60 1 1,
        z ≠ e → z.score < e.score := by
      intro z hz hne
      have hzk : z.key ≠ getUniqueKey ph x := by
        intro hk
        exact hne (eq_of_mem_of_same_key hnodup2 hmem hz (hk.trans hkey.symm))
      have hzsc := score_eq_scoreOf_of_mem hnodup2 hz
      have hble := scoreOf_fusedEntries_other_le ph x y la' lb' hA hB z.key
        hzk (fun hxk => hzk (hxk.trans heq.symm))
      rw [hescore, hzsc]
      calc scoreOf (fusedEntries ph (x :: la') (y :: lb') 60 1 1) z.key
          ≤ 1/31 := hble
        _ < 2/61 := by norm_num
    have hhead := insertionSort_head_of_max _ e hmem hmax
    refine ⟨{ e.doc with rrf_score := some e.score, score := some e.score },
      ?_, ?_, ?_⟩
    · unfold reciprocalRankFusion
      rcases hs : List.insertionSort (fun a b : FusedEntry => b.score ≤ a.score)
          (fusedEntries ph (x :: la') (y :: lb') 60 1 1) with _ | ⟨h0, t0⟩
      · rw [hs] at hhead
        cases hhead
      · rw [hs] at hhead
        have hh0 : h0 = e := by simpa using hhead
        rw [hh0]
        rfl
    · simp [hescore]
    · simpa using hsrc

/-- Witness for C4 at concrete inputs: disjoint singleton lists give the
rank-0 item `1/61`; the same item at rank 0 of both lists accumulates
`2/61`. -/
theorem c4_rrf_fusion_witness :
    scoreOf (fusedEntries (fun _ => 0) [docP] [docQ] 60 1 1)
      (getUniqueKey (fun _ => 0) docP) = 1/61 ∧
    scoreOf (fusedEntries (fun _ => 0) [docP] [docP] 60 1 1)
      (getUniqueKey (fun _ => 0) docP) = 2/61 := by
  constructor
  · exact (c4_rrf_fusion.1 (fun _ => 0) [docP] [docQ] (by decide) (by decide)
      (by decide)).1 docP rfl
  · exact (c4_rrf_fusion.2 (fun _ => 0) [docP] [docP] docP docP (by decide)
      (by decide) rfl rfl rfl).1
